import Mathlib

/-!
# IKRigNode (src/ikRigNode.h): enumeration, `position`, `clamp`

Shallow embedding of the parts of `IKRigNode` whose bodies are in the header: the enumeration
`IKRigPart`, the member `position` and the member `clamp`. The C++ `float` of `clamp` is the
type `F32`, IEEE-754 binary32 with its comparisons and its round-to-nearest-even addition
and subtraction; `clamp` itself is written over any carrier with a decidable `<`. The solver
members (`twoBoneIk`, `calculateTwoBoneIk`, `calculateLegIk`) are only
declared in the header; the definitions about them are written from the specification and
say so.
-/

set_option maxRecDepth 20000

namespace IKRig

/-! ## The C++ `float` type: IEEE-754 binary32, by its three bit fields -/

/-- A binary32 value: sign bit, 8 exponent bits, 23 fraction bits. -/
structure F32 where
  sign : Bool
  exponent : Fin 256
  mantissa : Fin 8388608
deriving DecidableEq, Repr

namespace F32

/-- NaN: all exponent bits set and a non-zero fraction. -/
def isNaN (f : F32) : Bool := decide (f.exponent.val = 255) && decide (f.mantissa.val ≠ 0)

/-- The 31 low bits read as one unsigned number; it orders the absolute values. -/
def magnitude (f : F32) : Nat := f.exponent.val * 8388608 + f.mantissa.val

/-- Signed position of a non-NaN value on the number line (both zeros give 0). -/
def key (f : F32) : Int := if f.sign then -(f.magnitude : Int) else (f.magnitude : Int)

/-- The C++ `a < b` on floats: false as soon as one operand is NaN. -/
def lt (a b : F32) : Prop := a.isNaN = false ∧ b.isNaN = false ∧ a.key < b.key

/-- The C++ `a <= b` on floats: false as soon as one operand is NaN. -/
def le (a b : F32) : Prop := a.isNaN = false ∧ b.isNaN = false ∧ a.key ≤ b.key

instance : LT F32 := ⟨F32.lt⟩
instance : LE F32 := ⟨F32.le⟩

instance decLt (a b : F32) : Decidable (a < b) :=
  inferInstanceAs (Decidable (a.isNaN = false ∧ b.isNaN = false ∧ a.key < b.key))

instance decLe (a b : F32) : Decidable (a ≤ b) :=
  inferInstanceAs (Decidable (a.isNaN = false ∧ b.isNaN = false ∧ a.key ≤ b.key))

/-- The C++ `a == b` on floats: false as soon as one operand is NaN, true on the two zeros. -/
def feq (a b : F32) : Prop := a.isNaN = false ∧ b.isNaN = false ∧ a.key = b.key

instance decFeq (a b : F32) : Decidable (F32.feq a b) :=
  inferInstanceAs (Decidable (a.isNaN = false ∧ b.isNaN = false ∧ a.key = b.key))

/-- Neither NaN nor an infinity: the exponent field is not all ones. -/
def isFinite (f : F32) : Bool := decide (f.exponent.val ≠ 255)

/-- The absolute value of a finite float in units of 2^-149: the fraction itself for a
subnormal (exponent field 0), else the fraction with its hidden bit, shifted. -/
def scaled (f : F32) : Nat :=
  if f.exponent.val = 0 then f.mantissa.val
  else (8388608 + f.mantissa.val) * 2 ^ (f.exponent.val - 1)

/-- The rational number a finite float stands for. -/
def toRat (f : F32) : ℚ :=
  (if f.sign then -(f.scaled : ℚ) else (f.scaled : ℚ)) / 2 ^ 149

/-- The value +0.0f (bits 0x00000000). -/
def zero : F32 := ⟨false, 0, 0⟩
/-- The value -0.0f (bits 0x80000000). -/
def negZero : F32 := ⟨true, 0, 0⟩
/-- The value 1.0f (bits 0x3F800000). -/
def one : F32 := ⟨false, 127, 0⟩
/-- The value +infinity (bits 0x7F800000). -/
def inf : F32 := ⟨false, 255, 0⟩
/-- The value -infinity (bits 0xFF800000). -/
def negInf : F32 := ⟨true, 255, 0⟩
/-- The default quiet NaN (bits 0x7FC00000). -/
def qNaN : F32 := ⟨false, 255, 4194304⟩

/-- The float with the given 32-bit pattern: bit 31 the sign, bits 30-23 the exponent field,
bits 22-0 the fraction. -/
def ofBits (n : Nat) : F32 :=
  ⟨decide (n / 2147483648 % 2 = 1), Fin.ofNat (n / 8388608 % 256), Fin.ofNat (n % 8388608)⟩

/-- An infinity: all exponent bits set and a zero fraction. -/
def isInf (f : F32) : Bool := decide (f.exponent.val = 255) && decide (f.mantissa.val = 0)

/-- The float with the given sign whose 31 low bits are `code`. -/
def ofCode (s : Bool) (code : Nat) : F32 :=
  ⟨s, Fin.ofNat (code / 8388608), Fin.ofNat (code % 8388608)⟩

/-- The number of halvings that bring `m` below 2^24 (at most `fuel` of them): the number of
low bits of `m` that do not fit into a 24-bit significand. -/
def shiftFor : Nat → Nat → Nat
  | 0, _ => 0
  | fuel + 1, m => if m < 16777216 then 0 else 1 + shiftFor fuel (m / 2)

/-- Round to nearest, ties to even: the 31 low bits of the float nearest to `m` units of
2^-149. With `s` bits dropped and `q` the kept significand, the truncated float has the bits
`s * 2^23 + q`; it is stepped to the next float when the dropped part is more than half a
unit of `q`, or exactly half with `q` odd; from 2^128 on the result is infinity. -/
def roundCode (m : Nat) : Nat :=
  let s := shiftFor 300 m
  let q := m / 2 ^ s
  let r := m % 2 ^ s
  let up := decide (2 ^ s < 2 * r) || (decide (2 * r = 2 ^ s) && decide (q % 2 = 1))
  let code := s * 8388608 + q + (if up then 1 else 0)
  if 2139095040 ≤ code then 2139095040 else code

/-- The C++ unary minus on floats: the sign bit flipped. -/
def fneg (a : F32) : F32 := ⟨!a.sign, a.exponent, a.mantissa⟩

/-- The C++ `a + b` on floats (IEEE-754 binary32, round to nearest even). A NaN operand or
the sum of opposite infinities gives a NaN (which NaN is platform-dependent; the default one
stands for it), an infinity is absorbing, an exact zero sum of opposite signs is +0, and
every other sum is the exact sum rounded. -/
def fadd (a b : F32) : F32 :=
  if a.isNaN || b.isNaN then qNaN
  else if a.isInf then (if b.isInf && (a.sign != b.sign) then qNaN else a)
  else if b.isInf then b
  else if a.sign = b.sign then ofCode a.sign (roundCode (a.scaled + b.scaled))
  else if a.scaled = b.scaled then ⟨false, 0, 0⟩
  else if b.scaled < a.scaled then ofCode a.sign (roundCode (a.scaled - b.scaled))
  else ofCode b.sign (roundCode (b.scaled - a.scaled))

/-- The C++ `a - b` on floats: `a + (-b)`. -/
def fsub (a b : F32) : F32 := fadd a (fneg b)

/-- The value 2.0f. -/
def two : F32 := ofBits 0x40000000
/-- The value 3.0f. -/
def three : F32 := ofBits 0x40400000
/-- The value 10.0f. -/
def ten : F32 := ofBits 0x41200000
/-- The value 0.001f, the float nearest to 1/1000. -/
def milli : F32 := ofBits 0x3A83126F
/-- The value 2^-30. -/
def twoPowNeg30 : F32 := ofBits 0x30800000
/-- The value 20000.0f. -/
def twentyThousand : F32 := ofBits 0x469C4000
/-- The value 40000.0f. -/
def fortyThousand : F32 := ofBits 0x471C4000
end F32

/-! ## `IKRigNode::clamp` (ikRigNode.h, lines 75-83) -/

/-- The member `float clamp(float inValue, float minValue, float maxValue)`: the two tests
of the source in their order. The carrier is any type with a decidable `<`; `F32` is the
source's `float`. -/
def clamp {α : Type} [LT α] [DecidableRel (fun a b : α => a < b)]
    (inValue minValue maxValue : α) : α :=
  if inValue < minValue then minValue
  else if inValue > maxValue then maxValue
  else inValue

/-- The enumerators of `enum IKRigPart`, `IKRig_Count` included. -/
inductive IKRigPart where
  | IKRig_Hips
  | IKRig_Chest
  | IKRig_Neck
  | IKRig_Head
  | IKRig_LeftClavicle
  | IKRig_LeftShoulder
  | IKRig_LeftElbow
  | IKRig_LeftHand
  | IKRig_LeftUpLeg
  | IKRig_LeftLoLeg
  | IKRig_LeftFoot
  | IKRig_RightClavicle
  | IKRig_RightShoulder
  | IKRig_RightElbow
  | IKRig_RightHand
  | IKRig_RightUpLeg
  | IKRig_RightLoLeg
  | IKRig_RightFoot
  | IKRig_Count
deriving DecidableEq, Repr, Fintype

namespace IKRigPart

/-- The enumerator list of the source, in the order it is written there. -/
def enumerators : List IKRigPart :=
  [IKRig_Hips, IKRig_Chest, IKRig_Neck, IKRig_Head,
   IKRig_LeftClavicle, IKRig_LeftShoulder, IKRig_LeftElbow, IKRig_LeftHand,
   IKRig_LeftUpLeg, IKRig_LeftLoLeg, IKRig_LeftFoot,
   IKRig_RightClavicle, IKRig_RightShoulder, IKRig_RightElbow, IKRig_RightHand,
   IKRig_RightUpLeg, IKRig_RightLoLeg, IKRig_RightFoot,
   IKRig_Count]

/-- The integer value of an enumerator. No enumerator of the source has an initialiser, so
the first one is 0 and each next one is its predecessor plus one: the value is the position
in the list. -/
def value (p : IKRigPart) : Nat := enumerators.indexOf p

end IKRigPart

/-- Three body-part indices: the `(upLeg, loLeg, foot)` arguments of `calculateLegIk`
(ikRigNode.h, lines 61-63), root first. -/
structure LimbChain where
  root : IKRigPart
  mid : IKRigPart
  effector : IKRigPart
deriving DecidableEq, Repr

/-- The three indices of a chain as numbers. -/
def LimbChain.indices (c : LimbChain) : List Nat := [c.root.value, c.mid.value, c.effector.value]

/-- Modelled from the spec: the limb-chain table (the dispatch in `compute` that passes the
triples to `calculateLegIk` is not in the header). Left leg: (UpLeg, LoLeg, Foot). -/
def leftLeg : LimbChain :=
  ⟨.IKRig_LeftUpLeg, .IKRig_LeftLoLeg, .IKRig_LeftFoot⟩

/-- Modelled from the spec: the limb-chain table (the dispatch in `compute` is not in the
header). Right leg: (UpLeg, LoLeg, Foot). -/
def rightLeg : LimbChain :=
  ⟨.IKRig_RightUpLeg, .IKRig_RightLoLeg, .IKRig_RightFoot⟩

/-- Modelled from the spec: the limb-chain table (the dispatch in `compute` is not in the
header). Left arm: (Shoulder, Elbow, Hand). -/
def leftArm : LimbChain :=
  ⟨.IKRig_LeftShoulder, .IKRig_LeftElbow, .IKRig_LeftHand⟩

/-- Modelled from the spec: the limb-chain table (the dispatch in `compute` is not in the
header). Right arm: (Shoulder, Elbow, Hand). -/
def rightArm : LimbChain :=
  ⟨.IKRig_RightShoulder, .IKRig_RightElbow, .IKRig_RightHand⟩

/-- The four limb chains. -/
def limbChains : List LimbChain := [leftLeg, rightLeg, leftArm, rightArm]

/-- The seven left-side enumerators, each with the right-side enumerator of the same name. -/
def sidePairs : List (IKRigPart × IKRigPart) :=
  [(.IKRig_LeftClavicle, .IKRig_RightClavicle),
   (.IKRig_LeftShoulder, .IKRig_RightShoulder),
   (.IKRig_LeftElbow, .IKRig_RightElbow),
   (.IKRig_LeftHand, .IKRig_RightHand),
   (.IKRig_LeftUpLeg, .IKRig_RightUpLeg),
   (.IKRig_LeftLoLeg, .IKRig_RightLoLeg),
   (.IKRig_LeftFoot, .IKRig_RightFoot)]

/-! ## `IKRigNode::position` (ikRigNode.h, line 65) -/

/-- Maya's `MVector`: three scalars. -/
@[ext]
structure MVector (α : Type) where
  x : α
  y : α
  z : α
deriving DecidableEq, Repr

/-- Maya's `MMatrix`: a 4x4 array of scalars, `m[i][j]` is `m i j`. -/
abbrev MMatrix (α : Type) := Fin 4 → Fin 4 → α

/-- The member `MVector position(const MMatrix& m)`, whose body is
`return MVector(m[3][0], m[3][1], m[3][2]);`. -/
def position {α : Type} (m : MMatrix α) : MVector α := ⟨m 3 0, m 3 1, m 3 2⟩

/-- A rigid transform (identity rotation) with translation row (1, 2, 3). -/
def rigidSample : MMatrix Int :=
  ![![1, 0, 0, 0], ![0, 1, 0, 0], ![0, 0, 1, 0], ![1, 2, 3, 1]]

/-- A non-orthonormal transform (scale and shear in the upper-left block, another fourth
column) with the same translation row (1, 2, 3). -/
def shearedSample : MMatrix Int :=
  ![![5, 7, 0, 9], ![0, -2, 4, 8], ![3, 0, 6, 7], ![1, 2, 3, 6]]

/-! ## Degenerate chains (spec §4.1, §4.2, §7)

The bodies of `twoBoneIk`, `calculateTwoBoneIk` and `calculateLegIk` are not in the header;
what follows is written from the specification. -/

namespace MVector

variable {K : Type} [LinearOrderedField K]

/-- Componentwise difference (`MVector::operator-`). -/
def sub (a b : MVector K) : MVector K := ⟨a.x - b.x, a.y - b.y, a.z - b.z⟩

/-- Squared Euclidean length: the square of `MVector::length()`. -/
def lengthSq (a : MVector K) : K := a.x * a.x + a.y * a.y + a.z * a.z

end MVector

section SpecModel

variable {K : Type} [LinearOrderedField K]

/-- Modelled from the spec: what the solver reports for one limb (§7): either an unsolved
state or the two rotations of §4.1. The solver bodies are not in the header. -/
inductive SolveResult (R : Type) where
  | unsolved
  | solved (rootRotation midRotation : R)
deriving DecidableEq, Repr

/-- Modelled from the spec: §4.1 step 1, the rest bone length between two joints, squared
(the body of `twoBoneIk` is not in the header). -/
def boneLengthSq (a b : MVector K) : K := MVector.lengthSq (MVector.sub b a)

/-- Modelled from the spec: the solver of §4.1 with the degenerate-chain rule of §7 (the body
of `twoBoneIk` is not in the header). A chain with a zero bone length is reported unsolved;
otherwise the closed-form steps 2-7, the parameter `closedForm`, give the two rotations. -/
def solve {R : Type}
    (closedForm : MVector K → MVector K → MVector K → MVector K → MVector K → R × R)
    (root mid effector target pole : MVector K) : SolveResult R :=
  if boneLengthSq root mid = 0 ∨ boneLengthSq mid effector = 0 then SolveResult.unsolved
  else
    SolveResult.solved (closedForm root mid effector target pole).1
      (closedForm root mid effector target pole).2

/-- Modelled from the spec: the chain resolver of §4.2 as the caller of the solver (the body
of `calculateLegIk` is not in the header). On an unsolved limb it substitutes the rest pose
of the two joints unmodified (§7); otherwise `applyRotation` replaces their rotations. -/
def resolveLimb {R P : Type}
    (closedForm : MVector K → MVector K → MVector K → MVector K → MVector K → R × R)
    (applyRotation : P → R → P) (restRoot restMid : P)
    (root mid effector target pole : MVector K) : P × P :=
  match solve closedForm root mid effector target pole with
  | SolveResult.unsolved => (restRoot, restMid)
  | SolveResult.solved a b => (applyRotation restRoot a, applyRotation restMid b)

end SpecModel

/-! # Theorems -/

/-! ## The enumeration -/

/-- Claim C5: the body parts have the values hips 0, chest 1, neck 2, head 3, then left
clavicle, shoulder, elbow, hand 4-7, left upleg, loleg, foot 8-10, right clavicle, shoulder,
elbow, hand 11-14, right upleg, loleg, foot 15-17, and `IKRig_Count` is 18; the values are
pairwise distinct, every enumerator other than `IKRig_Count` has a value below 18, and every
number below 18 is the value of one of them: there are exactly 18 body parts, without gaps. -/
theorem ikRigPart_values :
    IKRigPart.value IKRigPart.IKRig_Hips = 0 ∧
    IKRigPart.value IKRigPart.IKRig_Chest = 1 ∧
    IKRigPart.value IKRigPart.IKRig_Neck = 2 ∧
    IKRigPart.value IKRigPart.IKRig_Head = 3 ∧
    IKRigPart.value IKRigPart.IKRig_LeftClavicle = 4 ∧
    IKRigPart.value IKRigPart.IKRig_LeftShoulder = 5 ∧
    IKRigPart.value IKRigPart.IKRig_LeftElbow = 6 ∧
    IKRigPart.value IKRigPart.IKRig_LeftHand = 7 ∧
    IKRigPart.value IKRigPart.IKRig_LeftUpLeg = 8 ∧
    IKRigPart.value IKRigPart.IKRig_LeftLoLeg = 9 ∧
    IKRigPart.value IKRigPart.IKRig_LeftFoot = 10 ∧
    IKRigPart.value IKRigPart.IKRig_RightClavicle = 11 ∧
    IKRigPart.value IKRigPart.IKRig_RightShoulder = 12 ∧
    IKRigPart.value IKRigPart.IKRig_RightElbow = 13 ∧
    IKRigPart.value IKRigPart.IKRig_RightHand = 14 ∧
    IKRigPart.value IKRigPart.IKRig_RightUpLeg = 15 ∧
    IKRigPart.value IKRigPart.IKRig_RightLoLeg = 16 ∧
    IKRigPart.value IKRigPart.IKRig_RightFoot = 17 ∧
    IKRigPart.value IKRigPart.IKRig_Count = 18 ∧
    (∀ p q : IKRigPart, p.value = q.value → p = q) ∧
    (∀ p : IKRigPart, p ≠ IKRigPart.IKRig_Count → p.value < 18) ∧
    (∀ n, n < 18 → ∃ p : IKRigPart, p ≠ IKRigPart.IKRig_Count ∧ p.value = n) ∧
    (Finset.univ.filter (fun p : IKRigPart => p ≠ IKRigPart.IKRig_Count)).card = 18 := by
  decide

/-- Claim C6: each of the four limb chains has three distinct indices, strictly increasing
from root to mid to effector and all below `IKRig_Count`, and two different chains have no
index in common. -/
theorem limbChains_ordered_disjoint :
    limbChains.length = 4 ∧
    (∀ c ∈ limbChains,
      c.indices.length = 3 ∧ c.indices.Nodup ∧
      c.root.value < c.mid.value ∧ c.mid.value < c.effector.value ∧
      c.effector.value < IKRigPart.value IKRigPart.IKRig_Count) ∧
    limbChains.Pairwise (fun c1 c2 => ∀ i ∈ c1.indices, i ∉ c2.indices) := by
  decide

/-- Claim C10: the right-side enumerator of each of the seven left/right pairs has the value
of the left-side one plus 7, so the right leg and the right arm are the left leg and the left
arm with 7 added to every index. -/
theorem right_is_left_plus_seven :
    sidePairs.length = 7 ∧
    (∀ pr ∈ sidePairs, pr.2.value = pr.1.value + 7) ∧
    rightLeg.indices = leftLeg.indices.map (fun i => i + 7) ∧
    rightArm.indices = leftArm.indices.map (fun i => i + 7) := by
  decide

/-! ## `position` -/

/-- Claim C7: `position m` is `(m[3][0], m[3][1], m[3][2])`, so two matrices that agree on
these three entries have the same position, whatever their other thirteen entries are. -/
theorem position_reads_translation_row {α : Type} (m1 m2 : MMatrix α)
    (h0 : m1 3 0 = m2 3 0) (h1 : m1 3 1 = m2 3 1) (h2 : m1 3 2 = m2 3 2) :
    position m1 = ⟨m1 3 0, m1 3 1, m1 3 2⟩ ∧ position m1 = position m2 := by
  refine ⟨rfl, ?_⟩
  simp only [position, h0, h1, h2]

/-- A rigid and a sheared, scaled matrix with the same translation row: `position` gives
(1, 2, 3) for both. -/
theorem position_reads_translation_row_witness :
    (rigidSample 3 0 = shearedSample 3 0 ∧ rigidSample 3 1 = shearedSample 3 1 ∧
      rigidSample 3 2 = shearedSample 3 2) ∧
    rigidSample 0 0 ≠ shearedSample 0 0 ∧ rigidSample 3 3 ≠ shearedSample 3 3 ∧
    position rigidSample = ⟨1, 2, 3⟩ ∧ position shearedSample = ⟨1, 2, 3⟩ ∧
    position rigidSample = position shearedSample :=
  ⟨⟨by decide, by decide, by decide⟩, by decide, by decide, by decide, by decide,
    (position_reads_translation_row rigidSample shearedSample
      (by decide) (by decide) (by decide)).2⟩

/-! ## The order of `float` is the order of the values -/

theorem F32.lt_iff (a b : F32) :
    a < b ↔ a.isNaN = false ∧ b.isNaN = false ∧ a.key < b.key := Iff.rfl

theorem F32.le_iff (a b : F32) :
    a ≤ b ↔ a.isNaN = false ∧ b.isNaN = false ∧ a.key ≤ b.key := Iff.rfl

/-- Within the magnitudes, a larger bit pattern is a larger absolute value. -/
theorem F32.scaled_lt_of_magnitude_lt {a b : F32} (h : a.magnitude < b.magnitude) :
    a.scaled < b.scaled := by
  have hma := a.mantissa.isLt
  have hmb := b.mantissa.isLt
  unfold F32.magnitude at h
  have hpa : 0 < 2 ^ (a.exponent.val - 1) := Nat.pow_pos (by norm_num)
  rcases Nat.lt_trichotomy a.exponent.val b.exponent.val with he | he | he
  · -- the exponent field decides
    have hb0 : b.exponent.val ≠ 0 := by omega
    have hupper : a.scaled < 8388608 * 2 ^ a.exponent.val := by
      unfold F32.scaled
      split_ifs with ha0
      · rw [ha0]; simp only [pow_zero, mul_one]; exact hma
      · have hsplit : 2 ^ a.exponent.val = 2 * 2 ^ (a.exponent.val - 1) := by
          exact (Nat.two_pow_pred_mul_two (by omega)).symm.trans (Nat.mul_comm _ _)
        rw [hsplit]
        nlinarith
    have hlower : 8388608 * 2 ^ a.exponent.val ≤ b.scaled := by
      unfold F32.scaled
      rw [if_neg hb0]
      have hpow : 2 ^ a.exponent.val ≤ 2 ^ (b.exponent.val - 1) :=
        Nat.pow_le_pow_right (by norm_num) (by omega)
      nlinarith
    omega
  · -- equal exponent fields: the fraction decides
    have hm : a.mantissa.val < b.mantissa.val := by rw [he] at h; omega
    unfold F32.scaled
    rw [he]
    split_ifs with hb0
    · exact hm
    · have hpb : 0 < 2 ^ (b.exponent.val - 1) := Nat.pow_pos (by norm_num)
      nlinarith
  · exfalso
    nlinarith

/-- The bit pattern orders the absolute values. -/
theorem F32.scaled_lt_iff (a b : F32) : a.scaled < b.scaled ↔ a.magnitude < b.magnitude := by
  constructor
  · intro h
    by_contra hn
    rcases Nat.eq_or_lt_of_le (not_lt.mp hn) with he | hl
    · have hma := a.mantissa.isLt
      have hmb := b.mantissa.isLt
      have hexp : b.exponent.val = a.exponent.val := by unfold F32.magnitude at he; omega
      have hman : b.mantissa.val = a.mantissa.val := by unfold F32.magnitude at he; omega
      unfold F32.scaled at h
      rw [hexp, hman] at h
      exact lt_irrefl _ h
    · exact lt_asymm h (F32.scaled_lt_of_magnitude_lt hl)
  · exact F32.scaled_lt_of_magnitude_lt

/-- The two zeros are the only floats of absolute value zero. -/
theorem F32.scaled_eq_zero_iff (a : F32) : a.scaled = 0 ↔ a.magnitude = 0 := by
  unfold F32.scaled F32.magnitude
  have hp : 0 < 2 ^ (a.exponent.val - 1) := Nat.pow_pos (by norm_num)
  split_ifs with h0
  · rw [h0]; omega
  · constructor
    · intro h
      have : 0 < (8388608 + a.mantissa.val) * 2 ^ (a.exponent.val - 1) :=
        Nat.mul_pos (by omega) hp
      omega
    · intro h; omega

/-- Sample values: 1.0f stands for 1, -0.0f for 0, and the bit pattern 0x3F000000 for 1/2. -/
theorem F32.toRat_samples :
    F32.one.toRat = 1 ∧ F32.negZero.toRat = 0 ∧ F32.toRat ⟨false, 126, 0⟩ = 1 / 2 := by
  have h1 : F32.one.scaled = 2 ^ 149 := by decide
  have h2 : F32.negZero.scaled = 0 := by decide
  have h3 : F32.scaled ⟨false, 126, 0⟩ = 2 ^ 148 := by decide
  refine ⟨?_, ?_, ?_⟩
  · rw [F32.toRat, h1]; norm_num [F32.one]
  · rw [F32.toRat, h2]; norm_num
  · rw [F32.toRat, h3]; norm_num

/-- On finite floats `a < b` is the order of the rational values: the model of `<` is the
IEEE-754 comparison. -/
theorem F32.lt_iff_toRat_lt (a b : F32) (ha : a.isFinite = true) (hb : b.isFinite = true) :
    a < b ↔ a.toRat < b.toRat := by
  have hna : a.isNaN = false := by
    simp only [F32.isFinite, decide_eq_true_eq] at ha
    simp [F32.isNaN, ha]
  have hnb : b.isNaN = false := by
    simp only [F32.isFinite, decide_eq_true_eq] at hb
    simp [F32.isNaN, hb]
  have hpos : (0 : ℚ) < 2 ^ 149 := by positivity
  have hs := F32.scaled_lt_iff a b
  have hs2 := F32.scaled_lt_iff b a
  have hza := F32.scaled_eq_zero_iff a
  have hzb := F32.scaled_eq_zero_iff b
  rw [F32.lt_iff]
  simp only [hna, hnb, true_and, F32.toRat, F32.key, div_lt_div_iff_of_pos_right hpos]
  cases a.sign <;> cases b.sign <;> simp only [Bool.false_eq_true, if_false, if_true]
  · exact ⟨fun h => by exact_mod_cast hs.mpr (by exact_mod_cast h),
      fun h => by exact_mod_cast hs.mp (by exact_mod_cast h)⟩
  · constructor
    · intro h; omega
    · intro h
      have h1 : (0 : ℚ) ≤ (a.scaled : ℚ) := Nat.cast_nonneg _
      have h2 : (0 : ℚ) ≤ (b.scaled : ℚ) := Nat.cast_nonneg _
      linarith
  · constructor
    · intro h
      have hne : ¬ (a.scaled = 0 ∧ b.scaled = 0) := by
        rintro ⟨h1, h2⟩; rw [hza] at h1; rw [hzb] at h2; omega
      have h1 : (0 : ℚ) ≤ (a.scaled : ℚ) := Nat.cast_nonneg _
      have h2 : (0 : ℚ) ≤ (b.scaled : ℚ) := Nat.cast_nonneg _
      rcases Nat.eq_zero_or_pos a.scaled with hz | hp
      · have hbp : 0 < b.scaled := Nat.pos_of_ne_zero (fun h0 => hne ⟨hz, h0⟩)
        have : (0 : ℚ) < (b.scaled : ℚ) := Nat.cast_pos.mpr hbp
        linarith
      · have : (0 : ℚ) < (a.scaled : ℚ) := Nat.cast_pos.mpr hp
        linarith
    · intro h
      have hne : ¬ (a.magnitude = 0 ∧ b.magnitude = 0) := by
        rintro ⟨h1, h2⟩
        rw [← hza] at h1; rw [← hzb] at h2
        rw [h1, h2] at h
        simp at h
      omega
  · rw [neg_lt_neg_iff, neg_lt_neg_iff]
    exact ⟨fun h => by exact_mod_cast hs2.mpr (by exact_mod_cast h),
      fun h => by exact_mod_cast hs2.mp (by exact_mod_cast h)⟩

/-! ## Float addition rounds to nearest, ties to even -/

namespace F32

/-- The 31 low bits of `ofCode s c` are `c`. -/
theorem ofCode_magnitude (s : Bool) {c : Nat} (hc : c < 2147483648) :
    (ofCode s c).magnitude = c := by
  have h1 : c / 8388608 < 256 := by omega
  have h2 : c % 8388608 < 8388608 := Nat.mod_lt _ (by norm_num)
  show (c / 8388608) % 256 * 8388608 + (c % 8388608) % 8388608 = c
  rw [Nat.mod_eq_of_lt h1, Nat.mod_eq_of_lt h2]
  omega

/-- Unless the fuel runs out, `shiftFor` leaves a significand below 2^24, and one of at
least 2^23 as soon as a bit is dropped. -/
theorem shiftFor_spec (fuel : Nat) : ∀ m : Nat,
    (shiftFor fuel m = fuel ∨ m / 2 ^ shiftFor fuel m < 16777216) ∧
    (shiftFor fuel m = 0 ∨ 8388608 ≤ m / 2 ^ shiftFor fuel m) ∧
    shiftFor fuel m ≤ fuel := by
  induction fuel with
  | zero =>
    intro m
    exact ⟨Or.inl rfl, Or.inl rfl, Nat.le_refl _⟩
  | succ k ih =>
    intro m
    unfold shiftFor
    split_ifs with h
    · refine ⟨Or.inr ?_, Or.inl rfl, Nat.zero_le _⟩
      simp only [pow_zero, Nat.div_one]
      exact h
    · obtain ⟨h1, h2, h3⟩ := ih (m / 2)
      have hdiv : m / 2 ^ (1 + shiftFor k (m / 2)) = m / 2 / 2 ^ shiftFor k (m / 2) := by
        rw [pow_add, pow_one, Nat.div_div_eq_div_mul]
      rw [hdiv]
      refine ⟨?_, Or.inr ?_, by omega⟩
      · rcases h1 with h1 | h1
        · left; omega
        · right; exact h1
      · rcases h2 with h0 | hge
        · rw [h0]; simp only [pow_zero, Nat.div_one]; omega
        · exact hge

/-- The float with bits `s * 2^23 + q`, for a significand `q` below 2^24 that is at least
2^23 unless `s = 0`, has the absolute value `q * 2^s` units. -/
theorem scaled_ofCode (b : Bool) {s q : Nat} (hs : s ≤ 253) (hq : q < 16777216)
    (hq2 : s = 0 ∨ 8388608 ≤ q) : (ofCode b (s * 8388608 + q)).scaled = q * 2 ^ s := by
  have hexp : (ofCode b (s * 8388608 + q)).exponent.val = ((s * 8388608 + q) / 8388608) % 256 :=
    rfl
  have hman : (ofCode b (s * 8388608 + q)).mantissa.val
      = ((s * 8388608 + q) % 8388608) % 8388608 := rfl
  unfold scaled
  rw [hexp, hman, Nat.mod_mod]
  by_cases hlow : q < 8388608
  · have hs0 : s = 0 := by omega
    subst hs0
    have h1 : (0 * 8388608 + q) / 8388608 = 0 := by omega
    have h2 : (0 * 8388608 + q) % 8388608 = q := by omega
    rw [h1, h2]
    simp
  · have h1 : (s * 8388608 + q) / 8388608 = s + 1 := by omega
    have h2 : (s * 8388608 + q) % 8388608 = q - 8388608 := by omega
    rw [h1, h2, Nat.mod_eq_of_lt (by omega : s + 1 < 256), if_neg (by omega)]
    have h3 : 8388608 + (q - 8388608) = q := by omega
    rw [h3, Nat.add_sub_cancel]

/-- The next float after the one with bits `s * 2^23 + q` is one unit of `q` further. -/
theorem scaled_ofCode_succ (b : Bool) {s q : Nat} (hq : q < 16777216)
    (hq2 : s = 0 ∨ 8388608 ≤ q) (hfin : s * 8388608 + q + 1 < 2139095040) :
    (ofCode b (s * 8388608 + q + 1)).scaled = (q + 1) * 2 ^ s := by
  by_cases hq1 : q + 1 < 16777216
  · have hs : s ≤ 253 := by omega
    have := scaled_ofCode b hs hq1 (by omega)
    rw [← this, Nat.add_assoc]
  · have hqe : q = 16777215 := by omega
    have hs : s + 1 ≤ 253 := by omega
    have := scaled_ofCode b hs (by norm_num : 8388608 < 16777216) (Or.inr (Nat.le_refl _))
    have hcode : s * 8388608 + q + 1 = (s + 1) * 8388608 + 8388608 := by omega
    rw [hcode, this, hqe, pow_succ]
    ring

/-- Among the floats, a larger bit pattern below the NaN range is a larger absolute value. -/
theorem scaled_ofCode_lt_iff {c1 c2 : Nat} (h1 : c1 < 2147483648) (h2 : c2 < 2147483648) :
    (ofCode false c1).scaled < (ofCode false c2).scaled ↔ c1 < c2 := by
  rw [scaled_lt_iff, ofCode_magnitude false h1, ofCode_magnitude false h2]

/-- The rounding of `roundCode` is to nearest, ties to even: when it does not overflow, no
float is nearer to `m` than the float it returns, and a different float just as near exists
only when the returned bits are even. -/
theorem roundCode_nearest (m : Nat) (hm : roundCode m < 2139095040)
    (c : Nat) (hc : c < 2139095040) :
    ((ofCode false (roundCode m)).scaled - m) + (m - (ofCode false (roundCode m)).scaled)
      ≤ ((ofCode false c).scaled - m) + (m - (ofCode false c).scaled) ∧
    (((ofCode false c).scaled - m) + (m - (ofCode false c).scaled)
        = ((ofCode false (roundCode m)).scaled - m) + (m - (ofCode false (roundCode m)).scaled) →
      c ≠ roundCode m → roundCode m % 2 = 0) := by
  obtain ⟨h1, h2, h3⟩ := shiftFor_spec 300 m
  have hrc : roundCode m =
      (if 2139095040 ≤ shiftFor 300 m * 8388608 + m / 2 ^ shiftFor 300 m +
          (if (decide (2 ^ shiftFor 300 m < 2 * (m % 2 ^ shiftFor 300 m)) ||
              (decide (2 * (m % 2 ^ shiftFor 300 m) = 2 ^ shiftFor 300 m) &&
                decide (m / 2 ^ shiftFor 300 m % 2 = 1))) = true then 1 else 0)
        then 2139095040
        else shiftFor 300 m * 8388608 + m / 2 ^ shiftFor 300 m +
          (if (decide (2 ^ shiftFor 300 m < 2 * (m % 2 ^ shiftFor 300 m)) ||
              (decide (2 * (m % 2 ^ shiftFor 300 m) = 2 ^ shiftFor 300 m) &&
                decide (m / 2 ^ shiftFor 300 m % 2 = 1))) = true then 1 else 0)) := rfl
  have hP : 0 < 2 ^ shiftFor 300 m := Nat.pow_pos (by norm_num)
  have hr : m % 2 ^ shiftFor 300 m < 2 ^ shiftFor 300 m := Nat.mod_lt _ hP
  have hmq : 2 ^ shiftFor 300 m * (m / 2 ^ shiftFor 300 m) + m % 2 ^ shiftFor 300 m = m :=
    Nat.div_add_mod m _
  generalize shiftFor 300 m = s at *
  generalize hq : m / 2 ^ s = q at *
  generalize hrr : m % 2 ^ s = r at *
  generalize hPP : 2 ^ s = P at *
  by_cases hup : (decide (P < 2 * r) || decide (2 * r = P) && decide (q % 2 = 1)) = true
  · -- rounded up to the next float
    simp only [if_pos hup] at hrc
    by_cases hcap : 2139095040 ≤ s * 8388608 + q + 1
    · rw [if_pos hcap] at hrc; rw [hrc] at hm; exact absurd hm (lt_irrefl _)
    rw [if_neg hcap] at hrc
    rw [hrc] at hm ⊢
    have hq24 : q < 16777216 := by omega
    have hnext : (ofCode false (s * 8388608 + q + 1)).scaled = (q + 1) * P := by
      rw [← hPP]; exact scaled_ofCode_succ false hq24 h2 (by omega)
    have hthis : (ofCode false (s * 8388608 + q)).scaled = q * P := by
      rw [← hPP]; exact scaled_ofCode false (by omega) hq24 h2
    have hup2 : P < 2 * r ∨ (2 * r = P ∧ q % 2 = 1) := by
      simpa using hup
    have hlt := @scaled_ofCode_lt_iff c (s * 8388608 + q + 1) (by omega) (by omega)
    have hgt := @scaled_ofCode_lt_iff (s * 8388608 + q + 1) c (by omega) (by omega)
    have hlt0 := @scaled_ofCode_lt_iff c (s * 8388608 + q) (by omega) (by omega)
    have hgt0 := @scaled_ofCode_lt_iff (s * 8388608 + q) c (by omega) (by omega)
    rw [hnext] at hlt hgt ⊢
    rw [hthis] at hlt0 hgt0
    have hX : (q + 1) * P = q * P + P := by ring
    have hmX : P * q = q * P := Nat.mul_comm _ _
    generalize (ofCode false c).scaled = sc at *
    generalize q * P = X at *
    rw [hX] at hlt hgt ⊢
    rw [hmX] at hmq
    constructor
    · by_cases hc1 : c < s * 8388608 + q + 1
      · by_cases hc0 : c < s * 8388608 + q
        · have := hlt0.mpr hc0; omega
        · have : ¬ sc < X := fun h => hc0 (hlt0.mp h)
          have : ¬ X < sc := fun h => by have := hgt0.mp h; omega
          omega
      · have : ¬ sc < X + P := fun h => hc1 (hlt.mp h)
        omega
    · intro hd hne
      by_cases hc1 : c < s * 8388608 + q + 1
      · by_cases hc0 : c < s * 8388608 + q
        · have := hlt0.mpr hc0; omega
        · have : ¬ sc < X := fun h => hc0 (hlt0.mp h)
          have : ¬ X < sc := fun h => by have := hgt0.mp h; omega
          omega
      · have h5 : ¬ sc < X + P := fun h => hc1 (hlt.mp h)
        have h6 : s * 8388608 + q + 1 < c := by omega
        have := hgt.mpr h6
        omega
  · -- truncated
    simp only [if_neg hup] at hrc
    rw [Nat.add_zero] at hrc
    by_cases hcap : 2139095040 ≤ s * 8388608 + q
    · rw [if_pos hcap] at hrc; rw [hrc] at hm; exact absurd hm (lt_irrefl _)
    rw [if_neg hcap] at hrc
    rw [hrc] at hm ⊢
    have hq24 : q < 16777216 := by omega
    have hthis : (ofCode false (s * 8388608 + q)).scaled = q * P := by
      rw [← hPP]; exact scaled_ofCode false (by omega) hq24 h2
    have hup2 : ¬ (P < 2 * r ∨ (2 * r = P ∧ q % 2 = 1)) := by
      simpa using hup
    have hlt0 := @scaled_ofCode_lt_iff c (s * 8388608 + q) (by omega) (by omega)
    have hgt0 := @scaled_ofCode_lt_iff (s * 8388608 + q) c (by omega) (by omega)
    rw [hthis] at hlt0 hgt0 ⊢
    have hmX : P * q = q * P := Nat.mul_comm _ _
    rw [hmX] at hmq
    by_cases hc1 : s * 8388608 + q < c
    · -- floats above: at least one unit of `q` further
      have hnext : (ofCode false (s * 8388608 + q + 1)).scaled = (q + 1) * P := by
        rw [← hPP]; exact scaled_ofCode_succ false hq24 h2 (by omega)
      have hge := @scaled_ofCode_lt_iff c (s * 8388608 + q + 1) (by omega) (by omega)
      have hgt := @scaled_ofCode_lt_iff (s * 8388608 + q + 1) c (by omega) (by omega)
      rw [hnext] at hge hgt
      have hX : (q + 1) * P = q * P + P := by ring
      rw [hX] at hge hgt
      generalize (ofCode false c).scaled = sc at *
      generalize q * P = X at *
      have h5 : ¬ sc < X + P := fun h => by have := hge.mp h; omega
      constructor
      · omega
      · intro hd hne
        by_cases hc2 : s * 8388608 + q + 1 < c
        · have := hgt.mpr hc2; omega
        · omega
    · generalize (ofCode false c).scaled = sc at *
      generalize q * P = X at *
      by_cases hc0 : c < s * 8388608 + q
      · have := hlt0.mpr hc0
        constructor
        · omega
        · intro hd hne; omega
      · have : ¬ sc < X := fun h => hc0 (hlt0.mp h)
        have : ¬ X < sc := fun h => hc1 (hgt0.mp h)
        constructor
        · omega
        · intro hd hne; omega

end F32

/-! ## `clamp` on `float` -/

/-- Between two values that are not NaN, `a < b` fails exactly when `b <= a`. -/
theorem F32.not_lt_iff_le {a b : F32} (ha : a.isNaN = false) (hb : b.isNaN = false) :
    ¬ a < b ↔ b ≤ a := by
  rw [F32.lt_iff, F32.le_iff]
  constructor
  · intro h
    exact ⟨hb, ha, not_lt.mp (fun hk => h ⟨ha, hb, hk⟩)⟩
  · rintro ⟨_, _, hk⟩ ⟨_, _, hk2⟩
    exact absurd hk2 (not_lt.mpr hk)

/-- A comparison with NaN is false: `clamp` takes neither of its two branches on NaN. -/
theorem F32.clamp_of_isNaN {v : F32} (hv : v.isNaN = true) (lo hi : F32) :
    clamp v lo hi = v := by
  have h1 : ¬ v < lo := by
    rw [F32.lt_iff]; rintro ⟨h, _⟩; rw [hv] at h; exact Bool.noConfusion h
  have h2 : ¬ v > hi := by
    show ¬ hi < v
    rw [F32.lt_iff]; rintro ⟨_, h, _⟩; rw [hv] at h; exact Bool.noConfusion h
  simp only [clamp, if_neg h1, if_neg h2]

/-- With `lo <= hi`, clamping a value that is not NaN gives a value that is not NaN. -/
theorem F32.clamp_isNaN_false {v lo hi : F32} (hb : lo ≤ hi) (hv : v.isNaN = false) :
    (clamp v lo hi).isNaN = false := by
  obtain ⟨hlo, hhi, _⟩ := (F32.le_iff lo hi).mp hb
  unfold clamp
  split_ifs
  · exact hlo
  · exact hhi
  · exact hv

/-- With `lo <= hi`, a value that is not NaN is returned by `clamp` with its own bits
exactly when it lies in `[lo, hi]`, and the same holds for equality in the sense of `==`. -/
theorem F32.clamp_eq_self_iff {v lo hi : F32} (hb : lo ≤ hi) (hn : v.isNaN = false) :
    (clamp v lo hi = v ↔ lo ≤ v ∧ v ≤ hi) ∧ (F32.feq (clamp v lo hi) v ↔ lo ≤ v ∧ v ≤ hi) := by
  obtain ⟨hlo, hhi, _⟩ := (F32.le_iff lo hi).mp hb
  have hirr : ∀ a : F32, ¬ a < a := fun a h => lt_irrefl _ ((F32.lt_iff a a).mp h).2.2
  by_cases h1 : v < lo
  · have hr : clamp v lo hi = lo := by simp only [clamp, if_pos h1]
    have hkey := ((F32.lt_iff _ _).mp h1).2.2
    have hout : ¬ (lo ≤ v ∧ v ≤ hi) := fun hin => (F32.not_lt_iff_le hn hlo).mpr hin.1 h1
    rw [hr]
    exact ⟨⟨fun he => absurd (he ▸ h1) (hirr _), fun hin => absurd hin hout⟩,
      ⟨fun he => absurd he.2.2 (ne_of_gt hkey), fun hin => absurd hin hout⟩⟩
  · by_cases h2 : v > hi
    · have hr : clamp v lo hi = hi := by simp only [clamp, if_neg h1, if_pos h2]
      have hkey := ((F32.lt_iff _ _).mp h2).2.2
      have hout : ¬ (lo ≤ v ∧ v ≤ hi) := fun hin => (F32.not_lt_iff_le hhi hn).mpr hin.2 h2
      rw [hr]
      exact ⟨⟨fun he => absurd (he ▸ h2) (hirr _), fun hin => absurd hin hout⟩,
        ⟨fun he => absurd he.2.2 (ne_of_lt hkey), fun hin => absurd hin hout⟩⟩
    · have hr : clamp v lo hi = v := by simp only [clamp, if_neg h1, if_neg h2]
      have hin : lo ≤ v ∧ v ≤ hi :=
        ⟨(F32.not_lt_iff_le hn hlo).mp h1, (F32.not_lt_iff_le hhi hn).mp h2⟩
      rw [hr]
      exact ⟨⟨fun _ => hin, fun _ => rfl⟩, ⟨fun _ => hin, fun _ => ⟨hn, hn, rfl⟩⟩⟩

/-- With `lo <= hi`, clamping twice gives the same bits as clamping once. -/
theorem F32.clamp_clamp {lo hi : F32} (hb : lo ≤ hi) (v : F32) :
    clamp (clamp v lo hi) lo hi = clamp v lo hi := by
  obtain ⟨hlo, hhi, _⟩ := (F32.le_iff lo hi).mp hb
  have hlohi : ¬ hi < lo := (F32.not_lt_iff_le hhi hlo).mpr hb
  have hirr : ∀ a : F32, ¬ a < a := fun a h => lt_irrefl _ ((F32.lt_iff a a).mp h).2.2
  by_cases h1 : v < lo
  · have hr : clamp v lo hi = lo := by simp only [clamp, if_pos h1]
    rw [hr]
    simp only [clamp, if_neg (hirr lo), gt_iff_lt, if_neg hlohi]
  · by_cases h2 : v > hi
    · have hr : clamp v lo hi = hi := by simp only [clamp, if_neg h1, if_pos h2]
      rw [hr]
      simp only [clamp, if_neg hlohi, gt_iff_lt, if_neg (hirr hi)]
    · have hr : clamp v lo hi = v := by simp only [clamp, if_neg h1, if_neg h2]
      rw [hr, hr]

/-- Claim C4 (amended): for all bounds with `minValue <= maxValue`, the result of
`clamp(inValue, minValue, maxValue)` satisfies `minValue <= result` and `result <= maxValue`
exactly when `inValue` is not NaN: it does for every other `inValue`, however extreme, the
two infinities included. -/
theorem clamp_bounded_iff_not_nan (inValue minValue maxValue : F32)
    (hb : minValue ≤ maxValue) :
    (minValue ≤ clamp inValue minValue maxValue ∧
      clamp inValue minValue maxValue ≤ maxValue) ↔ inValue.isNaN = false := by
  obtain ⟨hlo, hhi, hk⟩ := (F32.le_iff minValue maxValue).mp hb
  constructor
  · intro h
    cases hn : inValue.isNaN
    · rfl
    · rw [F32.clamp_of_isNaN hn] at h
      have := ((F32.le_iff _ _).mp h.1).2.1
      rw [hn] at this
      exact Bool.noConfusion this
  · intro hn
    unfold clamp
    split_ifs with h1 h2
    · exact ⟨⟨hlo, hlo, le_refl _⟩, hb⟩
    · exact ⟨hb, ⟨hhi, hhi, le_refl _⟩⟩
    · exact ⟨(F32.not_lt_iff_le hn hlo).mp h1, (F32.not_lt_iff_le hhi hn).mp h2⟩

/-- The bound holds at `inValue = +infinity`, `minValue = 0`, `maxValue = 1`, where the
result is 1. -/
theorem clamp_bounded_iff_not_nan_witness :
    F32.zero ≤ F32.one ∧ F32.inf.isNaN = false ∧
    clamp F32.inf F32.zero F32.one = F32.one ∧
    F32.zero ≤ clamp F32.inf F32.zero F32.one ∧ clamp F32.inf F32.zero F32.one ≤ F32.one :=
  ⟨by decide, by decide, by decide,
    (clamp_bounded_iff_not_nan F32.inf F32.zero F32.one (by decide)).mpr (by decide)⟩

/-- Counterexample for C4 as stated, at NaN: with bounds 0 <= 1, `clamp(NaN, 0, 1)` is NaN, and
neither `0 <= NaN` nor `NaN <= 1` holds. -/
theorem clamp_nan_not_bounded :
    F32.zero ≤ F32.one ∧
    clamp F32.qNaN F32.zero F32.one = F32.qNaN ∧
    ¬ (F32.zero ≤ clamp F32.qNaN F32.zero F32.one ∧
        clamp F32.qNaN F32.zero F32.one ≤ F32.one) := by
  decide

/-- Claim C9 (amended): with `minValue <= maxValue`, `clamp` returns `inValue` with its own
bits exactly when `minValue <= inValue <= maxValue` or `inValue` is NaN, and returns a value
`==` to `inValue` exactly when `minValue <= inValue <= maxValue`; clamping the clamped value
returns it with the same bits for every `inValue`, and the two are `==` exactly when
`inValue` is not NaN. -/
theorem clamp_fixed_iff_in_range (inValue minValue maxValue : F32)
    (hb : minValue ≤ maxValue) :
    (clamp inValue minValue maxValue = inValue ↔
      (minValue ≤ inValue ∧ inValue ≤ maxValue) ∨ inValue.isNaN = true) ∧
    (F32.feq (clamp inValue minValue maxValue) inValue ↔
      minValue ≤ inValue ∧ inValue ≤ maxValue) ∧
    clamp (clamp inValue minValue maxValue) minValue maxValue =
      clamp inValue minValue maxValue ∧
    (F32.feq (clamp (clamp inValue minValue maxValue) minValue maxValue)
        (clamp inValue minValue maxValue) ↔ inValue.isNaN = false) := by
  have hcc := F32.clamp_clamp hb inValue
  cases hn : inValue.isNaN
  · obtain ⟨hbits, heq⟩ := F32.clamp_eq_self_iff hb hn
    have hres := F32.clamp_isNaN_false hb hn
    refine ⟨⟨fun h => Or.inl (hbits.mp h), fun h => ?_⟩, heq, hcc, ?_⟩
    · rcases h with h | h
      · exact hbits.mpr h
      · exact Bool.noConfusion h
    · rw [hcc]
      exact ⟨fun _ => rfl, fun _ => ⟨hres, hres, rfl⟩⟩
  · have hself := F32.clamp_of_isNaN hn minValue maxValue
    have hnotin : ¬ (minValue ≤ inValue ∧ inValue ≤ maxValue) := by
      rintro ⟨h, _⟩
      have := ((F32.le_iff _ _).mp h).2.1
      rw [hn] at this
      exact Bool.noConfusion this
    have hnofeq : ∀ w : F32, ¬ F32.feq w inValue := by
      intro w h
      have := h.2.1
      rw [hn] at this
      exact Bool.noConfusion this
    refine ⟨⟨fun _ => Or.inr rfl, fun _ => hself⟩,
      ⟨fun h => absurd h (hnofeq _), fun h => absurd h hnotin⟩, hcc, ?_⟩
    rw [hcc, hself]
    exact ⟨fun h => absurd h (hnofeq _), fun h => Bool.noConfusion h⟩

/-- The statement at `inValue = -0.0f`, `minValue = +0.0f`, `maxValue = 1.0f`: the value is
in range and is returned with its sign bit. -/
theorem clamp_fixed_iff_in_range_witness :
    F32.zero ≤ F32.one ∧
    (F32.zero ≤ F32.negZero ∧ F32.negZero ≤ F32.one) ∧
    clamp F32.negZero F32.zero F32.one = F32.negZero ∧
    clamp (clamp F32.negZero F32.zero F32.one) F32.zero F32.one =
      clamp F32.negZero F32.zero F32.one :=
  have h := clamp_fixed_iff_in_range F32.negZero F32.zero F32.one (by decide)
  ⟨by decide, by decide, h.1.mpr (Or.inl (by decide)), h.2.2.1⟩

/-- Counterexample for C9 as stated, at NaN: with bounds 0 <= 1, `clamp(NaN, 0, 1)` is NaN
unchanged although `0 <= NaN <= 1` is false; and in the sense of `==` the doubly clamped NaN is
not equal to the clamped NaN. -/
theorem clamp_nan_fixed_out_of_range :
    F32.zero ≤ F32.one ∧
    ¬ (clamp F32.qNaN F32.zero F32.one = F32.qNaN ↔
        (F32.zero ≤ F32.qNaN ∧ F32.qNaN ≤ F32.one)) ∧
    ¬ F32.feq (clamp (clamp F32.qNaN F32.zero F32.one) F32.zero F32.one)
        (clamp F32.qNaN F32.zero F32.one) := by
  decide

/-! ## `clamp` on the bounds of the reach limit -/

/-- Sample sums and differences, bit for bit: `1 + 1 - 0.001f` is 0x3FFFDF3B,
`20000 + 20000 - 0.001f` is 40000 again, `1 + 1 - 2^-30` is 2 again, `1 - 1` is +0 and
`3 - 10` is -7. -/
theorem F32.fadd_fsub_samples :
    F32.fsub (F32.fadd F32.one F32.one) F32.milli = F32.ofBits 0x3FFFDF3B ∧
    F32.fsub (F32.fadd F32.twentyThousand F32.twentyThousand) F32.milli = F32.fortyThousand ∧
    F32.fsub (F32.fadd F32.one F32.one) F32.twoPowNeg30 = F32.two ∧
    F32.fsub F32.one F32.one = F32.zero ∧
    F32.fsub F32.three F32.ten = F32.ofBits 0xC0E00000 := by
  decide

section Degenerate

variable {K : Type} [LinearOrderedField K]

/-- A bone has length zero exactly when its two joints coincide. -/
theorem boneLengthSq_eq_zero_iff (a b : MVector K) : boneLengthSq a b = 0 ↔ a = b := by
  constructor
  · intro h
    simp only [boneLengthSq, MVector.lengthSq, MVector.sub] at h
    have hx := mul_self_nonneg (b.x - a.x)
    have hy := mul_self_nonneg (b.y - a.y)
    have hz := mul_self_nonneg (b.z - a.z)
    have hx0 : (b.x - a.x) * (b.x - a.x) = 0 := by linarith
    have hy0 : (b.y - a.y) * (b.y - a.y) = 0 := by linarith
    have hz0 : (b.z - a.z) * (b.z - a.z) = 0 := by linarith
    ext
    · exact (sub_eq_zero.mp (mul_self_eq_zero.mp hx0)).symm
    · exact (sub_eq_zero.mp (mul_self_eq_zero.mp hy0)).symm
    · exact (sub_eq_zero.mp (mul_self_eq_zero.mp hz0)).symm
  · rintro rfl
    simp [boneLengthSq, MVector.lengthSq, MVector.sub]

/-- The solver model reports unsolved exactly on the chains with two coinciding joints. -/
theorem solve_unsolved_iff {R : Type}
    (closedForm : MVector K → MVector K → MVector K → MVector K → MVector K → R × R)
    (root mid effector target pole : MVector K) :
    solve closedForm root mid effector target pole = SolveResult.unsolved ↔
      (root = mid ∨ mid = effector) := by
  have hdeg : (boneLengthSq root mid = 0 ∨ boneLengthSq mid effector = 0) ↔
      (root = mid ∨ mid = effector) := by
    rw [boneLengthSq_eq_zero_iff, boneLengthSq_eq_zero_iff]
  unfold solve
  split_ifs with h
  · exact ⟨fun _ => hdeg.mp h, fun _ => rfl⟩
  · exact ⟨fun h2 => h2.elim, fun h2 => absurd (hdeg.mpr h2) h⟩

/-- Claim C8: for every rest configuration with `root = mid` or `mid = effector`, whatever
the target and the pole vector, the solver reports the unsolved state and returns no
rotations, and the limb's two outputs are the rest poses, unmodified. -/
theorem degenerate_chain_unsolved {R P : Type}
    (closedForm : MVector K → MVector K → MVector K → MVector K → MVector K → R × R)
    (applyRotation : P → R → P) (restRoot restMid : P)
    (root mid effector target pole : MVector K) (h : root = mid ∨ mid = effector) :
    solve closedForm root mid effector target pole = SolveResult.unsolved ∧
    (∀ a b : R, solve closedForm root mid effector target pole ≠ SolveResult.solved a b) ∧
    resolveLimb closedForm applyRotation restRoot restMid root mid effector target pole
      = (restRoot, restMid) := by
  have hs := (solve_unsolved_iff closedForm root mid effector target pole).mpr h
  refine ⟨hs, fun a b hab => ?_, ?_⟩
  · rw [hs] at hab; cases hab
  · simp only [resolveLimb, hs]

/-- The statement on a chain whose root and mid joints coincide at the origin. -/
theorem degenerate_chain_unsolved_witness :
    ((⟨0, 0, 0⟩ : MVector ℚ) = ⟨0, 0, 0⟩ ∨ (⟨0, 0, 0⟩ : MVector ℚ) = ⟨1, 0, 0⟩) ∧
    solve (fun _ _ _ _ _ => ((1 : ℚ), (2 : ℚ)))
        (⟨0, 0, 0⟩ : MVector ℚ) ⟨0, 0, 0⟩ ⟨1, 0, 0⟩ ⟨0, 1, 0⟩ ⟨0, 0, 1⟩
      = SolveResult.unsolved ∧
    resolveLimb (fun _ _ _ _ _ => ((1 : ℚ), (2 : ℚ))) (fun (p r : ℚ) => p + r) 10 20
        (⟨0, 0, 0⟩ : MVector ℚ) ⟨0, 0, 0⟩ ⟨1, 0, 0⟩ ⟨0, 1, 0⟩ ⟨0, 0, 1⟩
      = (10, 20) :=
  have h := degenerate_chain_unsolved (fun _ _ _ _ _ => ((1 : ℚ), (2 : ℚ)))
    (fun (p r : ℚ) => p + r) 10 20
    (⟨0, 0, 0⟩ : MVector ℚ) ⟨0, 0, 0⟩ ⟨1, 0, 0⟩ ⟨0, 1, 0⟩ ⟨0, 0, 1⟩ (Or.inl rfl)
  ⟨Or.inl rfl, h.1, h.2.2⟩

end Degenerate

end IKRig
